import Mathlib

/-!
Verification of the `DS.Adapter` base class
(`src/packages/ember-data/lib/adapters/adapter.js`).

The adapter is embedded shallowly:

* `groupByType`, `commit`, `findMany` and the batched CRUD defaults are
  translated from the source, with the calls they make into the store /
  the single-record primitives recorded as explicit event traces (the
  source performs these calls for their side effects only).
* `materialize` is translated from the source as the list of per-field
  setter calls it delegates to the record
  (`materializeId` / `materializeAttribute` / `materializeHasMany` /
  `materializeBelongsTo`), each carrying the raw payload value
  (`hash[name]`, `Option`-valued since an absent key yields `undefined`).
  The `Record` class itself is not part of this repository fragment, so
  the effect of a setter on record state is modelled from the spec.
-/

namespace DSAdapter

/-- Kind of a declared association, as read from `meta.kind` in
`materialize`: the source dispatches on `'hasMany'` and `'belongsTo'`
and does nothing for any other kind. -/
inductive AssocKind where
  | hasMany
  | belongsTo
  | other
deriving DecidableEq, Repr

/-- The per-type metadata `materialize` iterates over:
`record.eachAttribute` yields the declared attribute names in order, and
`associationsByName` yields the declared `(name, meta.kind)` pairs in
order. -/
structure RecordType where
  attrs : List String
  assocs : List (String × AssocKind)
deriving DecidableEq, Repr

/-- A raw payload (`hash`): an ordered association list from field name
to raw value; `hash[name]` is `lookup`, `none` standing for
`undefined`. -/
abbrev RawHash := List (String × String)

/-- `extractId(type, hash)`: `return hash.id;`. -/
def extractId (h : RawHash) : Option String :=
  h.lookup "id"

/-- One setter call delegated to the record during `materialize`:
`mid` is `record.materializeId(id)`, the others are
`record.materializeAttribute/HasMany/BelongsTo(name, hash[name])`. -/
inductive MatCall where
  | mid (v : Option String)
  | attr (name : String) (v : Option String)
  | hasMany (name : String) (v : Option String)
  | belongsTo (name : String) (v : Option String)
deriving DecidableEq, Repr

/-- The sequence of setter calls `materialize(record, hash)` makes, in
source order: `materializeId` first, then `materializeAttributes`
(one `materializeAttribute(record, hash, name)` per declared attribute),
then one `materializeHasMany`/`materializeBelongsTo` per declared
association, dispatched on `meta.kind`; an association of any other kind
produces no call. -/
def materializeCalls (t : RecordType) (h : RawHash) : List MatCall :=
  MatCall.mid (extractId h) ::
    (t.attrs.map (fun n => MatCall.attr n (h.lookup n)) ++
      t.assocs.filterMap (fun p =>
        match p.2 with
        | AssocKind.hasMany => some (MatCall.hasMany p.1 (h.lookup p.1))
        | AssocKind.belongsTo => some (MatCall.belongsTo p.1 (h.lookup p.1))
        | AssocKind.other => none))

/-- In-place update of an ordered field table: overwrite the first
binding of `k` if present, else append `(k, v)` at the end. -/
def setField (f : List (String × String)) (k v : String) :
    List (String × String) :=
  match f with
  | [] => [(k, v)]
  | (k', v') :: rest =>
      if k' = k then (k, v) :: rest else (k', v') :: setField rest k v

/-- Modelled from the spec: the `Record`'s materialized state (the
`Record` class is not in this fragment). It has "an identifier
(materialized lazily from a raw payload) ... and a mapping from field
name to current value". -/
structure MatRecord where
  rid : Option String
  fields : List (String × String)
deriving DecidableEq, Repr

/-- Modelled from the spec: the effect of one record setter call
(`Record` setters are not in this fragment). A present payload value is
written onto the field; an absent one (`undefined`) leaves the field to
"the field's existing/default handling (delegated to the Record)",
i.e. the field keeps its existing value; `materializeId` assigns the
identifier. -/
def applyMatCall (r : MatRecord) (c : MatCall) : MatRecord :=
  match c with
  | MatCall.mid v => { r with rid := v }
  | MatCall.attr n v
  | MatCall.hasMany n v
  | MatCall.belongsTo n v =>
      match v with
      | some u => { r with fields := setField r.fields n u }
      | none => r

/-- `materialize(record, hash)`: delegate every per-field call to the
record, in source order. -/
def materialize (t : RecordType) (h : RawHash) (r : MatRecord) :
    MatRecord :=
  (materializeCalls t h).foldl applyMatCall r

/-- A record as `commit`/`groupByType` see it: an identity, its type
(`record.constructor`, identified abstractly), and the `isDirty` flag. -/
structure CRecord where
  rid : Nat
  typeId : Nat
  isDirty : Bool
deriving DecidableEq, Repr

/-- One step of `groupByType`'s loop:
`map.get(item.constructor).pushObject(item)` on an `Ember.MapWithDefault`
(an ordered map defaulting to an empty array): append `r` to the first
entry keyed `t`, or add a new `(t, [r])` entry at the end. -/
def pushGroup (m : List (Nat × List CRecord)) (t : Nat) (r : CRecord) :
    List (Nat × List CRecord) :=
  match m with
  | [] => [(t, [r])]
  | (t', rs) :: rest =>
      if t' = t then (t', rs ++ [r]) :: rest
      else (t', rs) :: pushGroup rest t r

/-- `groupByType(enumerable)`: iterate the collection in order, pushing
each item onto the group of its type. -/
def groupByType (l : List CRecord) : List (Nat × List CRecord) :=
  l.foldl (fun m item => pushGroup m item.typeId item) []

/-- `commitDetails`: the three record sets the store hands to
`commit`. -/
structure CommitDetails where
  created : List CRecord
  updated : List CRecord
  deleted : List CRecord
deriving Repr

/-- An observable call `commit` makes, in trace order:
`this.shouldCommit(record, relationships)`,
`store.didUpdateRecord(record)`, and the three batched CRUD methods
(each receiving a type and the records passed via `array.slice()`; the
copy is modelled by its value, the list itself). -/
inductive CommitEvent where
  | shouldCommitCall (r : CRecord)
  | didUpdateRecord (r : CRecord)
  | createRecords (t : Nat) (rs : List CRecord)
  | updateRecords (t : Nat) (rs : List CRecord)
  | deleteRecords (t : Nat) (rs : List CRecord)
deriving DecidableEq, Repr

/-- The first loop of `commit` over `commitDetails.updated`: a dirty
record is pushed onto `updated` unconditionally; a clean one is passed
to `shouldCommit`, and on `false` reported via
`store.didUpdateRecord`, otherwise pushed onto `updated`. The
accumulator pairs the `updated` array with the events emitted so far.
`sc r rel` stands for `this.shouldCommit(record, relationships)`. -/
def commitFilter {P : Type} (sc : CRecord → P → Bool) (rel : P)
    (l : List CRecord) : List CRecord × List CommitEvent :=
  l.foldl (fun acc r =>
    if !r.isDirty then
      if !(sc r rel) then
        (acc.1, acc.2 ++ [CommitEvent.shouldCommitCall r,
                          CommitEvent.didUpdateRecord r])
      else
        (acc.1 ++ [r], acc.2 ++ [CommitEvent.shouldCommitCall r])
    else (acc.1 ++ [r], acc.2)) ([], [])

/-- `commit(store, commitDetails, relationships)`: filter the updated
set, then dispatch `createRecords` per created type-group,
`updateRecords` per filtered-updated type-group, and `deleteRecords`
per deleted type-group, in that order. -/
def commit {P : Type} (sc : CRecord → P → Bool) (cd : CommitDetails)
    (rel : P) : List CommitEvent :=
  let p := commitFilter sc rel cd.updated
  p.2 ++
    (groupByType cd.created).map
      (fun g => CommitEvent.createRecords g.1 g.2) ++
    (groupByType p.1).map
      (fun g => CommitEvent.updateRecords g.1 g.2) ++
    (groupByType cd.deleted).map
      (fun g => CommitEvent.deleteRecords g.1 g.2)

/-- A call to `find(store, type, id)`, as issued by the default
`findMany`; store and type are identified abstractly. -/
structure FindCall where
  store : Nat
  rtype : Nat
  fid : Nat
deriving DecidableEq, Repr

/-- Default `findMany(store, type, ids)`: `ids.forEach`, calling
`this.find(store, type, id)` for each id in order. -/
def findMany (store rtype : Nat) (ids : List Nat) : List FindCall :=
  ids.foldl (fun acc i => acc ++ [FindCall.mk store rtype i]) []

/-- A call to one of the single-record CRUD primitives, as issued by the
default batched methods. -/
inductive CrudCall where
  | createRecord (store rtype : Nat) (r : CRecord)
  | updateRecord (store rtype : Nat) (r : CRecord)
  | deleteRecord (store rtype : Nat) (r : CRecord)
deriving DecidableEq, Repr

/-- Default `createRecords(store, type, records)`: `records.forEach`,
calling `this.createRecord(store, type, record)` for each record. -/
def createRecords (store rtype : Nat) (records : List CRecord) :
    List CrudCall :=
  records.foldl (fun acc r => acc ++ [CrudCall.createRecord store rtype r]) []

/-- Default `updateRecords(store, type, records)`: `records.forEach`,
calling `this.updateRecord(store, type, record)` for each record. -/
def updateRecords (store rtype : Nat) (records : List CRecord) :
    List CrudCall :=
  records.foldl (fun acc r => acc ++ [CrudCall.updateRecord store rtype r]) []

/-- Default `deleteRecords(store, type, records)`: `records.forEach`,
calling `this.deleteRecord(store, type, record)` for each record. -/
def deleteRecords (store rtype : Nat) (records : List CRecord) :
    List CrudCall :=
  records.foldl (fun acc r => acc ++ [CrudCall.deleteRecord store rtype r]) []

/-- The records `commit`'s first loop keeps for the update batch: dirty
records unconditionally, clean ones only when `shouldCommit` says so. -/
def updatedFilter {P : Type} (sc : CRecord → P → Bool) (rel : P)
    (l : List CRecord) : List CRecord :=
  l.filter (fun r => r.isDirty || sc r rel)

/-- The events `commit`'s first loop emits, in order: a `shouldCommit`
consultation for every clean record, followed by a `didUpdateRecord`
report when it answers `false`; nothing for a dirty record. -/
def filterEvents {P : Type} (sc : CRecord → P → Bool) (rel : P) :
    List CRecord → List CommitEvent
  | [] => []
  | r :: rest =>
      (if r.isDirty then []
       else if sc r rel then [CommitEvent.shouldCommitCall r]
       else [CommitEvent.shouldCommitCall r,
             CommitEvent.didUpdateRecord r]) ++
        filterEvents sc rel rest

/-- Whether an event is one of the three batched CRUD dispatches. -/
def CommitEvent.isBatch : CommitEvent → Bool
  | CommitEvent.createRecords _ _ => true
  | CommitEvent.updateRecords _ _ => true
  | CommitEvent.deleteRecords _ _ => true
  | _ => false

/-- The type an `updateRecords` event was dispatched for. -/
def updateKey : CommitEvent → Option Nat
  | CommitEvent.updateRecords t _ => some t
  | _ => none

/-- First-seen deduplication: the key order `Ember.MapWithDefault`
iteration exposes (insertion order, one entry per key). -/
def insertSeen (seen : List Nat) (t : Nat) : List Nat :=
  if t ∈ seen then seen else seen ++ [t]

/-- The list of types in first-seen order of a record collection. -/
def firstSeen (ts : List Nat) : List Nat :=
  ts.foldl insertSeen []

/-- The identifier component written by one setter call. -/
def callRid (c : MatCall) (x : Option String) : Option String :=
  match c with
  | MatCall.mid v => v
  | _ => x

/-- The field-table component written by one setter call. -/
def callFields (c : MatCall) (f : List (String × String)) :
    List (String × String) :=
  match c with
  | MatCall.mid _ => f
  | MatCall.attr n v
  | MatCall.hasMany n v
  | MatCall.belongsTo n v =>
      match v with
      | some u => setField f n u
      | none => f

/-- A call list is consistent when every call carries the value
determined by the payload: field writes carry `g name`, the id write
carries `i`. `materializeCalls` produces only such calls. -/
def CallConsistent (g : String → Option String) (i : Option String)
    (c : MatCall) : Prop :=
  match c with
  | MatCall.mid v => v = i
  | MatCall.attr n v => v = g n
  | MatCall.hasMany n v => v = g n
  | MatCall.belongsTo n v => v = g n

/-- A call is done on a state when re-applying it changes nothing. -/
def MatDone (c : MatCall) (r : MatRecord) : Prop :=
  applyMatCall r c = r

/-- The name a field-writing call targets (`none` for the id write). -/
def callName (c : MatCall) : Option String :=
  match c with
  | MatCall.mid _ => none
  | MatCall.attr n _ => some n
  | MatCall.hasMany n _ => some n
  | MatCall.belongsTo n _ => some n

/-- The payload value a call carries. -/
def callVal (c : MatCall) : Option String :=
  match c with
  | MatCall.mid v => v
  | MatCall.attr _ v => v
  | MatCall.hasMany _ v => v
  | MatCall.belongsTo _ v => v

/-- The ordered key list of a grouping map. -/
def keysOf {β : Type} (m : List (Nat × β)) : List Nat :=
  m.map Prod.fst

/-- The group stored under a key (empty when absent, matching the
map's default value). -/
def groupOf (m : List (Nat × List CRecord)) (t : Nat) : List CRecord :=
  (m.lookup t).getD []

/-! ### Lemmas about the field table -/

theorem lookup_cons_key_ne (es : List (String × String)) {a k : String}
    (h : a ≠ k) (b : String) : ((k, b) :: es).lookup a = es.lookup a := by
  simp only [List.lookup_cons, beq_false_of_ne h]

theorem lookup_setField_self (f : List (String × String)) (k v : String) :
    (setField f k v).lookup k = some v := by
  induction f with
  | nil => simp [setField]
  | cons p rest ih =>
      obtain ⟨k', v'⟩ := p
      by_cases hk : k' = k
      · subst hk
        simp [setField]
      · rw [setField, if_neg hk, lookup_cons_key_ne _ (Ne.symm hk)]
        exact ih

theorem lookup_setField_ne (f : List (String × String)) (k v : String)
    (k' : String) (h : k' ≠ k) :
    (setField f k v).lookup k' = f.lookup k' := by
  induction f with
  | nil => simp [setField, lookup_cons_key_ne _ h]
  | cons p rest ih =>
      obtain ⟨k₀, v₀⟩ := p
      by_cases hk : k₀ = k
      · subst hk
        rw [setField, if_pos rfl, lookup_cons_key_ne _ h,
          lookup_cons_key_ne _ h]
      · by_cases hk' : k' = k₀
        · subst hk'
          simp [setField, hk]
        · rw [setField, if_neg hk, lookup_cons_key_ne _ hk',
            lookup_cons_key_ne _ hk']
          exact ih

theorem setField_eq_self_iff (f : List (String × String)) (k v : String) :
    setField f k v = f ↔ f.lookup k = some v := by
  induction f with
  | nil => simp [setField]
  | cons p rest ih =>
      obtain ⟨k₀, v₀⟩ := p
      by_cases hk : k₀ = k
      · subst hk
        rw [setField, if_pos rfl, List.lookup_cons_self]
        simp only [List.cons.injEq, Prod.mk.injEq, Option.some.injEq,
          true_and, and_true]
        exact eq_comm
      · rw [setField, if_neg hk, lookup_cons_key_ne _ (Ne.symm hk)]
        simp only [List.cons.injEq, Prod.mk.injEq, true_and, ih,
          and_iff_right rfl]

theorem setField_setField_same (f : List (String × String)) (k v : String) :
    setField (setField f k v) k v = setField f k v := by
  rw [setField_eq_self_iff]
  exact lookup_setField_self f k v

/-! ### Idempotence machinery for `materialize` -/

theorem applyMatCall_eq (r : MatRecord) (c : MatCall) :
    applyMatCall r c = ⟨callRid c r.rid, callFields c r.fields⟩ := by
  cases c with
  | mid v => rfl
  | attr n v => cases v <;> rfl
  | hasMany n v => cases v <;> rfl
  | belongsTo n v => cases v <;> rfl

theorem materializeCalls_consistent (t : RecordType) (h : RawHash) :
    ∀ c ∈ materializeCalls t h,
      CallConsistent (fun n => h.lookup n) (extractId h) c := by
  intro c hc
  simp only [materializeCalls, List.mem_cons, List.mem_append,
    List.mem_map, List.mem_filterMap] at hc
  rcases hc with hc | ⟨n, _, rfl⟩ | ⟨p, _, hp⟩
  · subst hc; rfl
  · rfl
  · obtain ⟨n, k⟩ := p
    cases k with
    | hasMany =>
        simp only [Option.some.injEq] at hp
        subst hp; rfl
    | belongsTo =>
        simp only [Option.some.injEq] at hp
        subst hp; rfl
    | other => exact Option.noConfusion hp

theorem matDone_estab (r : MatRecord) (c : MatCall) :
    MatDone c (applyMatCall r c) := by
  unfold MatDone
  rw [applyMatCall_eq, applyMatCall_eq]
  cases c with
  | mid v => rfl
  | attr n v =>
      cases v with
      | none => rfl
      | some u => simp [callRid, callFields, setField_setField_same]
  | hasMany n v =>
      cases v with
      | none => rfl
      | some u => simp [callRid, callFields, setField_setField_same]
  | belongsTo n v =>
      cases v with
      | none => rfl
      | some u => simp [callRid, callFields, setField_setField_same]

theorem callFields_of_name (c : MatCall) (f : List (String × String)) :
    callFields c f =
      match callName c, callVal c with
      | some n, some u => setField f n u
      | _, _ => f := by
  cases c with
  | mid v => cases v <;> rfl
  | attr n v => cases v <;> rfl
  | hasMany n v => cases v <;> rfl
  | belongsTo n v => cases v <;> rfl

theorem consistent_val {g : String → Option String} {i : Option String}
    {c : MatCall} (hc : CallConsistent g i c) {n : String}
    (hn : callName c = some n) : callVal c = g n := by
  cases c with
  | mid v => exact Option.noConfusion hn
  | attr m v =>
      obtain rfl : m = n := by simpa [callName] using hn
      exact hc
  | hasMany m v =>
      obtain rfl : m = n := by simpa [callName] using hn
      exact hc
  | belongsTo m v =>
      obtain rfl : m = n := by simpa [callName] using hn
      exact hc

/-- Every setter call either leaves the field table alone or performs
one `setField` write at its target name. -/
theorem callFields_cases (c : MatCall) :
    (∀ f, callFields c f = f) ∨
      ∃ n u, callName c = some n ∧ callVal c = some u ∧
        ∀ f, callFields c f = setField f n u := by
  cases c with
  | mid v => exact Or.inl (fun _ => rfl)
  | attr n v =>
      cases v with
      | none => exact Or.inl (fun _ => rfl)
      | some u => exact Or.inr ⟨n, u, rfl, rfl, fun _ => rfl⟩
  | hasMany n v =>
      cases v with
      | none => exact Or.inl (fun _ => rfl)
      | some u => exact Or.inr ⟨n, u, rfl, rfl, fun _ => rfl⟩
  | belongsTo n v =>
      cases v with
      | none => exact Or.inl (fun _ => rfl)
      | some u => exact Or.inr ⟨n, u, rfl, rfl, fun _ => rfl⟩

/-- A done write stays done across another write that is consistent with
it (same name implies same written value). -/
theorem write_done_preserve {f : List (String × String)} {n u : String}
    (hd : setField f n u = f) {m w : String} (huu : m = n → w = u) :
    setField (setField f m w) n u = setField f m w := by
  by_cases hnn : m = n
  · subst hnn
    rw [huu rfl]
    exact setField_setField_same f m u
  · rw [setField_eq_self_iff] at hd ⊢
    rw [lookup_setField_ne f m w n (fun h => hnn h.symm)]
    exact hd

theorem callRid_done_preserve {g : String → Option String}
    {i : Option String} {c c' : MatCall} (hc : CallConsistent g i c)
    (hc' : CallConsistent g i c') {x : Option String}
    (hd : callRid c x = x) : callRid c (callRid c' x) = callRid c' x := by
  cases c with
  | mid v =>
      cases c' with
      | mid v' =>
          have h1 : v = i := hc
          have h2 : v' = i := hc'
          simp [callRid, h1, h2]
      | attr n' v' => exact hd
      | hasMany n' v' => exact hd
      | belongsTo n' v' => exact hd
  | attr n v => rfl
  | hasMany n v => rfl
  | belongsTo n v => rfl

theorem callFields_done_preserve {g : String → Option String}
    {i : Option String} {c c' : MatCall} (hc : CallConsistent g i c)
    (hc' : CallConsistent g i c') {f : List (String × String)}
    (hd : callFields c f = f) :
    callFields c (callFields c' f) = callFields c' f := by
  rcases callFields_cases c with hid | ⟨n, u, hn, hv, hw⟩
  · exact hid _
  · rcases callFields_cases c' with hid' | ⟨n', u', hn', hv', hw'⟩
    · rw [hid' f]
      exact hd
    · rw [hw f] at hd
      rw [hw' f, hw (setField f n' u')]
      refine write_done_preserve hd (fun hnn => ?_)
      have e1 : (some u : Option String) = g n := by
        rw [← hv]; exact consistent_val hc hn
      have e2 : (some u' : Option String) = g n' := by
        rw [← hv']; exact consistent_val hc' hn'
      rw [hnn] at e2
      exact Option.some.inj (e2.trans e1.symm)

theorem matDone_preserve {g : String → Option String} {i : Option String}
    {c c' : MatCall} (hc : CallConsistent g i c)
    (hc' : CallConsistent g i c') {r : MatRecord} (hd : MatDone c r) :
    MatDone c (applyMatCall r c') := by
  obtain ⟨rid, fl⟩ := r
  unfold MatDone at hd ⊢
  rw [applyMatCall_eq] at hd
  rw [applyMatCall_eq, applyMatCall_eq]
  simp only [MatRecord.mk.injEq] at hd ⊢
  exact ⟨callRid_done_preserve hc hc' hd.1,
         callFields_done_preserve hc hc' hd.2⟩

theorem matDone_foldl {g : String → Option String} {i : Option String}
    {c : MatCall} (hc : CallConsistent g i c) {L : List MatCall}
    (hL : ∀ c' ∈ L, CallConsistent g i c') {r : MatRecord}
    (hd : MatDone c r) : MatDone c (L.foldl applyMatCall r) := by
  induction L generalizing r with
  | nil => exact hd
  | cons c' L' ih =>
      simp only [List.foldl_cons]
      exact ih (fun x hx => hL x (List.mem_cons_of_mem _ hx))
        (matDone_preserve hc (hL c' (List.mem_cons_self _ _)) hd)

theorem foldl_applyMatCall_idem {g : String → Option String}
    {i : Option String} {L : List MatCall}
    (hL : ∀ c ∈ L, CallConsistent g i c) (r : MatRecord) :
    L.foldl applyMatCall (L.foldl applyMatCall r) = L.foldl applyMatCall r := by
  induction L generalizing r with
  | nil => rfl
  | cons c L' ih =>
      simp only [List.foldl_cons]
      have hc : CallConsistent g i c := hL c (List.mem_cons_self _ _)
      have hL' : ∀ c' ∈ L', CallConsistent g i c' :=
        fun x hx => hL x (List.mem_cons_of_mem _ hx)
      have hdone : MatDone c (L'.foldl applyMatCall (applyMatCall r c)) :=
        matDone_foldl hc hL' (matDone_estab r c)
      unfold MatDone at hdone
      rw [hdone]
      exact ih hL' (applyMatCall r c)

theorem lookup_callFields_ne {c : MatCall} {name : String}
    (hne : callName c ≠ some name) (f : List (String × String)) :
    (callFields c f).lookup name = f.lookup name := by
  rcases callFields_cases c with hid | ⟨n, u, hn, _, hw⟩
  · rw [hid]
  · rw [hw]
    refine lookup_setField_ne f n u name (fun e => hne ?_)
    rw [hn, e]

theorem foldl_fields_lookup_ne {name : String} {L : List MatCall}
    (hL : ∀ c ∈ L, callName c ≠ some name) (r : MatRecord) :
    ((L.foldl applyMatCall r).fields).lookup name =
      r.fields.lookup name := by
  induction L generalizing r with
  | nil => rfl
  | cons c L' ih =>
      simp only [List.foldl_cons]
      rw [ih (fun x hx => hL x (List.mem_cons_of_mem _ hx))]
      rw [applyMatCall_eq]
      exact lookup_callFields_ne (hL c (List.mem_cons_self _ _)) r.fields

end DSAdapter

namespace DSAdapter

/-- **C6.** Applying `materialize(record, hash)` twice with the same
hash leaves the record in the same state as applying it once: re-running
materialization with the same payload produces the same record state. -/
theorem materialize_idempotent (t : RecordType) (h : RawHash)
    (r : MatRecord) :
    materialize t h (materialize t h r) = materialize t h r :=
  foldl_applyMatCall_idem (materializeCalls_consistent t h) r

/-- **C9.** A declared attribute or association whose name is absent
from the raw payload hash is still delegated to the record: the
per-field materialization call appears in the trace carrying no payload
value (`none`, i.e. `undefined`), and the modelled record setter leaves
the field to its existing handling. -/
theorem materialize_absent_field_delegated (t : RecordType) (h : RawHash)
    (name : String) (habs : h.lookup name = none) :
    (name ∈ t.attrs → MatCall.attr name none ∈ materializeCalls t h) ∧
    ((name, AssocKind.hasMany) ∈ t.assocs →
      MatCall.hasMany name none ∈ materializeCalls t h) ∧
    ((name, AssocKind.belongsTo) ∈ t.assocs →
      MatCall.belongsTo name none ∈ materializeCalls t h) ∧
    (∀ r : MatRecord,
      applyMatCall r (MatCall.attr name none) = r ∧
      applyMatCall r (MatCall.hasMany name none) = r ∧
      applyMatCall r (MatCall.belongsTo name none) = r) := by
  refine ⟨fun hmem => ?_, fun hmem => ?_, fun hmem => ?_,
    fun r => ⟨rfl, rfl, rfl⟩⟩
  · simp only [materializeCalls, List.mem_cons, List.mem_append,
      List.mem_map]
    exact Or.inr (Or.inl ⟨name, hmem, by rw [habs]⟩)
  · simp only [materializeCalls, List.mem_cons, List.mem_append,
      List.mem_filterMap]
    exact Or.inr (Or.inr ⟨(name, AssocKind.hasMany), hmem, by rw [habs]⟩)
  · simp only [materializeCalls, List.mem_cons, List.mem_append,
      List.mem_filterMap]
    exact Or.inr (Or.inr ⟨(name, AssocKind.belongsTo), hmem, by rw [habs]⟩)

/-- Witness for C9 at a concrete record type and payload. -/
theorem materialize_absent_field_delegated_witness :
    MatCall.attr "x" none ∈
      materializeCalls ⟨["x"], []⟩ [("id", "1")] :=
  (materialize_absent_field_delegated ⟨["x"], []⟩ [("id", "1")] "x"
    (by decide)).1 (by simp)

/-- **C10.** `materialize` touches the identifier, every declared
attribute, and every association declared `hasMany` or `belongsTo`, but
an association of any other kind is left completely untouched: no
`materializeHasMany`/`materializeBelongsTo` call is made for it and the
record's field keeps its value. -/
theorem materialize_frame (t : RecordType) (h : RawHash) (name : String)
    (hother : ∀ k, (name, k) ∈ t.assocs → k = AssocKind.other)
    (hattr : name ∉ t.attrs) :
    (MatCall.mid (extractId h) ∈ materializeCalls t h) ∧
    (∀ n ∈ t.attrs, MatCall.attr n (h.lookup n) ∈ materializeCalls t h) ∧
    (∀ n, (n, AssocKind.hasMany) ∈ t.assocs →
      MatCall.hasMany n (h.lookup n) ∈ materializeCalls t h) ∧
    (∀ n, (n, AssocKind.belongsTo) ∈ t.assocs →
      MatCall.belongsTo n (h.lookup n) ∈ materializeCalls t h) ∧
    (∀ v, MatCall.hasMany name v ∉ materializeCalls t h) ∧
    (∀ v, MatCall.belongsTo name v ∉ materializeCalls t h) ∧
    (∀ r : MatRecord,
      (materialize t h r).fields.lookup name = r.fields.lookup name) := by
  have hname : ∀ c ∈ materializeCalls t h, callName c ≠ some name := by
    intro c hc
    simp only [materializeCalls, List.mem_cons, List.mem_append,
      List.mem_map, List.mem_filterMap] at hc
    rcases hc with rfl | ⟨n, hn, rfl⟩ | ⟨p, hp, hmk⟩
    · exact fun e => Option.noConfusion e
    · intro e
      obtain rfl : n = name := by simpa [callName] using e
      exact hattr hn
    · obtain ⟨n, k⟩ := p
      cases k with
      | hasMany =>
          simp only [Option.some.injEq] at hmk
          subst hmk
          intro e
          obtain rfl : n = name := by simpa [callName] using e
          exact AssocKind.noConfusion (hother AssocKind.hasMany hp)
      | belongsTo =>
          simp only [Option.some.injEq] at hmk
          subst hmk
          intro e
          obtain rfl : n = name := by simpa [callName] using e
          exact AssocKind.noConfusion (hother AssocKind.belongsTo hp)
      | other => exact Option.noConfusion hmk
  refine ⟨List.mem_cons_self _ _, fun n hn => ?_, fun n hn => ?_,
    fun n hn => ?_, fun v hv => ?_, fun v hv => ?_, fun r => ?_⟩
  · simp only [materializeCalls, List.mem_cons, List.mem_append,
      List.mem_map]
    exact Or.inr (Or.inl ⟨n, hn, rfl⟩)
  · simp only [materializeCalls, List.mem_cons, List.mem_append,
      List.mem_filterMap]
    exact Or.inr (Or.inr ⟨(n, AssocKind.hasMany), hn, rfl⟩)
  · simp only [materializeCalls, List.mem_cons, List.mem_append,
      List.mem_filterMap]
    exact Or.inr (Or.inr ⟨(n, AssocKind.belongsTo), hn, rfl⟩)
  · exact hname _ hv rfl
  · exact hname _ hv rfl
  · exact foldl_fields_lookup_ne hname r

/-! ### Lemmas about `groupByType` -/

theorem lookup_cons_ne_key {α β : Type} [BEq α] [LawfulBEq α]
    (es : List (α × β)) {a k : α} (h : a ≠ k) (b : β) :
    ((k, b) :: es).lookup a = es.lookup a := by
  simp only [List.lookup_cons, beq_false_of_ne h]

theorem keysOf_pushGroup (m : List (Nat × List CRecord)) (t : Nat)
    (r : CRecord) : keysOf (pushGroup m t r) = insertSeen (keysOf m) t := by
  induction m with
  | nil => simp [pushGroup, keysOf, insertSeen]
  | cons p rest ih =>
      obtain ⟨t', rs⟩ := p
      by_cases ht : t' = t
      · subst ht
        simp [pushGroup, keysOf, insertSeen]
      · rw [pushGroup, if_neg ht]
        by_cases hmem : t ∈ keysOf rest
        · simp only [keysOf, List.map_cons] at ih ⊢
          rw [show insertSeen (t' :: List.map Prod.fst rest) t =
              t' :: List.map Prod.fst rest from by
            simp [insertSeen, hmem, keysOf] at *
            simp [List.mem_cons, hmem]]
          rw [ih, show insertSeen (List.map Prod.fst rest) t =
              List.map Prod.fst rest from by simp [insertSeen, keysOf] at *
                                             simp [hmem]]
        · simp only [keysOf, List.map_cons] at ih ⊢
          rw [show insertSeen (t' :: List.map Prod.fst rest) t =
              (t' :: List.map Prod.fst rest) ++ [t] from by
            simp only [insertSeen, List.mem_cons]
            rw [if_neg]
            push_neg
            exact ⟨fun h => ht h.symm, fun h => hmem (by simpa [keysOf] using h)⟩]
          rw [ih, show insertSeen (List.map Prod.fst rest) t =
              List.map Prod.fst rest ++ [t] from by
            simp only [insertSeen]
            rw [if_neg (fun h => hmem (by simpa [keysOf] using h))]]
          simp

theorem groupOf_pushGroup (m : List (Nat × List CRecord)) (t' : Nat)
    (r : CRecord) (t : Nat) :
    groupOf (pushGroup m t' r) t =
      if t' = t then groupOf m t ++ [r] else groupOf m t := by
  induction m with
  | nil =>
      by_cases ht : t' = t
      · subst ht
        simp [pushGroup, groupOf]
      · rw [if_neg ht]
        show groupOf [(t', [r])] t = groupOf [] t
        unfold groupOf
        rw [lookup_cons_ne_key _ (Ne.symm ht)]
  | cons p rest ih =>
      obtain ⟨t₀, rs⟩ := p
      by_cases h0 : t₀ = t'
      · subst h0
        rw [pushGroup, if_pos rfl]
        by_cases ht : t₀ = t
        · subst ht
          simp [groupOf]
        · rw [if_neg ht]
          unfold groupOf
          rw [lookup_cons_ne_key _ (Ne.symm ht),
            lookup_cons_ne_key _ (Ne.symm ht)]
      · rw [pushGroup, if_neg h0]
        by_cases ht : t₀ = t
        · subst ht
          rw [if_neg (fun e => h0 e.symm)]
          unfold groupOf
          simp
        · unfold groupOf at ih ⊢
          rw [lookup_cons_ne_key _ (Ne.symm ht),
            lookup_cons_ne_key _ (Ne.symm ht)]
          exact ih

theorem keysOf_groupByType_aux (l : List CRecord)
    (m : List (Nat × List CRecord)) :
    keysOf (l.foldl (fun m item => pushGroup m item.typeId item) m) =
      (l.map (·.typeId)).foldl insertSeen (keysOf m) := by
  induction l generalizing m with
  | nil => rfl
  | cons r l' ih =>
      simp only [List.foldl_cons, List.map_cons]
      rw [ih, keysOf_pushGroup]

theorem keysOf_groupByType (l : List CRecord) :
    keysOf (groupByType l) = firstSeen (l.map (·.typeId)) :=
  keysOf_groupByType_aux l []

theorem groupOf_groupByType_aux (l : List CRecord)
    (m : List (Nat × List CRecord)) (t : Nat) :
    groupOf (l.foldl (fun m item => pushGroup m item.typeId item) m) t =
      groupOf m t ++ l.filter (fun r => r.typeId == t) := by
  induction l generalizing m with
  | nil => simp
  | cons r l' ih =>
      simp only [List.foldl_cons]
      rw [ih, groupOf_pushGroup]
      by_cases ht : r.typeId = t
      · rw [if_pos ht, List.filter_cons_of_pos (by simpa using ht),
          List.append_assoc]
        rfl
      · rw [if_neg ht, List.filter_cons_of_neg (by simpa using ht)]

theorem groupOf_groupByType (l : List CRecord) (t : Nat) :
    groupOf (groupByType l) t = l.filter (fun r => r.typeId == t) :=
  groupOf_groupByType_aux l [] t

theorem mem_insertSeen {seen : List Nat} {t x : Nat} :
    x ∈ insertSeen seen t ↔ x ∈ seen ∨ x = t := by
  unfold insertSeen
  by_cases h : t ∈ seen
  · rw [if_pos h]
    constructor
    · exact Or.inl
    · rintro (hx | rfl)
      · exact hx
      · exact h
  · rw [if_neg h]
    simp

theorem mem_firstSeen_aux {ts : List Nat} {seen : List Nat} {x : Nat} :
    x ∈ ts.foldl insertSeen seen ↔ x ∈ seen ∨ x ∈ ts := by
  induction ts generalizing seen with
  | nil => simp
  | cons t ts' ih =>
      simp only [List.foldl_cons, ih, mem_insertSeen, List.mem_cons]
      tauto

theorem mem_firstSeen {ts : List Nat} {x : Nat} :
    x ∈ firstSeen ts ↔ x ∈ ts := by
  unfold firstSeen
  rw [mem_firstSeen_aux]
  simp

theorem firstSeen_nodup_aux (ts : List Nat) (seen : List Nat)
    (h : seen.Nodup) : (ts.foldl insertSeen seen).Nodup := by
  induction ts generalizing seen with
  | nil => exact h
  | cons t ts' ih =>
      simp only [List.foldl_cons]
      refine ih _ ?_
      unfold insertSeen
      by_cases hmem : t ∈ seen
      · rwa [if_pos hmem]
      · rw [if_neg hmem, List.nodup_append]
        exact ⟨h, List.nodup_singleton t,
          by simpa [List.disjoint_singleton] using hmem⟩

theorem firstSeen_nodup (ts : List Nat) : (firstSeen ts).Nodup :=
  firstSeen_nodup_aux ts [] List.nodup_nil

theorem lookup_of_mem_nodupKeys {β : Type} (m : List (Nat × β))
    (hnd : (m.map Prod.fst).Nodup) {t : Nat} {g : β}
    (h : (t, g) ∈ m) : m.lookup t = some g := by
  induction m with
  | nil => exact absurd h (List.not_mem_nil _)
  | cons p rest ih =>
      obtain ⟨t₀, g₀⟩ := p
      simp only [List.map_cons, List.nodup_cons] at hnd
      rcases List.mem_cons.mp h with he | hmem
      · obtain ⟨rfl, rfl⟩ := Prod.mk.injEq .. ▸ he
        injection he with h1 h2
        exact List.lookup_cons_self
      · have hne : t ≠ t₀ := by
          rintro rfl
          exact hnd.1 (List.mem_map_of_mem Prod.fst hmem)
        rw [lookup_cons_ne_key _ hne]
        exact ih hnd.2 hmem

theorem groupByType_entry {l : List CRecord}
    {p : Nat × List CRecord} (hp : p ∈ groupByType l) :
    p.2 = l.filter (fun r => r.typeId == p.1) := by
  have hnd : ((groupByType l).map Prod.fst).Nodup := by
    have := keysOf_groupByType l
    unfold keysOf at this
    rw [this]
    exact firstSeen_nodup _
  obtain ⟨t, g⟩ := p
  have hl : (groupByType l).lookup t = some g :=
    lookup_of_mem_nodupKeys _ hnd hp
  have : groupOf (groupByType l) t = g := by
    unfold groupOf
    rw [hl]
    rfl
  rw [← this, groupOf_groupByType]

theorem eq_map_of_keys {β : Type} (m : List (Nat × β)) (F : Nat → β)
    (he : ∀ p ∈ m, p.2 = F p.1) :
    m = (m.map Prod.fst).map (fun t => (t, F t)) := by
  induction m with
  | nil => rfl
  | cons p rest ih =>
      obtain ⟨t, g⟩ := p
      simp only [List.map_cons, List.cons.injEq]
      constructor
      · have := he (t, g) (List.mem_cons_self _ _)
        simp only at this
        rw [this]
      · exact ih (fun q hq => he q (List.mem_cons_of_mem _ hq))

/-- `groupByType` in closed form: one entry per type in first-seen
order, each carrying the sub-collection of that type in original
order. -/
theorem groupByType_eq (l : List CRecord) :
    groupByType l = (firstSeen (l.map (·.typeId))).map
      (fun t => (t, l.filter (fun r => r.typeId == t))) := by
  have h1 := eq_map_of_keys (groupByType l)
    (fun t => l.filter (fun r => r.typeId == t))
    (fun p hp => groupByType_entry hp)
  rw [h1]
  have h2 : (groupByType l).map Prod.fst = firstSeen (l.map (·.typeId)) :=
    keysOf_groupByType l
  rw [h2]

theorem flatten_fibers_perm (ks : List Nat) (l : List CRecord)
    (hnd : ks.Nodup) (hcov : ∀ r ∈ l, r.typeId ∈ ks) :
    ((ks.map (fun t => l.filter (fun r => r.typeId == t))).flatten).Perm
      l := by
  induction ks generalizing l with
  | nil =>
      have : l = [] := by
        rw [List.eq_nil_iff_forall_not_mem]
        intro r hr
        exact (List.not_mem_nil _) (hcov r hr)
      rw [this]
      exact List.Perm.refl _
  | cons t ks' ih =>
      simp only [List.map_cons, List.flatten_cons]
      rw [List.nodup_cons] at hnd
      have hfib : ∀ t' ∈ ks',
          l.filter (fun r => r.typeId == t') =
            (l.filter (fun r => !(r.typeId == t))).filter
              (fun r => r.typeId == t') := by
        intro t' ht'
        have htt : t' ≠ t := by
          rintro rfl
          exact hnd.1 ht'
        rw [List.filter_filter]
        refine List.filter_congr (fun r _ => ?_)
        by_cases hr : r.typeId = t'
        · rw [hr, beq_self_eq_true, beq_false_of_ne htt]
          rfl
        · rw [beq_false_of_ne hr]
          rfl
      have hcov' : ∀ r ∈ l.filter (fun r => !(r.typeId == t)),
          r.typeId ∈ ks' := by
        intro r hr
        rw [List.mem_filter] at hr
        have := hcov r hr.1
        rcases List.mem_cons.mp this with he | hm
        · exact absurd (by simpa using hr.2) (by simp [he])
        · exact hm
      have hperm := ih (l.filter (fun r => !(r.typeId == t))) hnd.2 hcov'
      have hmapeq : ks'.map (fun t' => l.filter (fun r => r.typeId == t'))
          = ks'.map (fun t' =>
              (l.filter (fun r => !(r.typeId == t))).filter
                (fun r => r.typeId == t')) :=
        List.map_congr_left hfib
      rw [hmapeq]
      exact List.Perm.trans (List.Perm.append_left _ hperm)
        (List.filter_append_perm _ l)

/-! ### Lemmas about `commit`'s trace -/

theorem updatedFilter_cons_pos {P : Type} {sc : CRecord → P → Bool}
    {rel : P} {r : CRecord} (l : List CRecord)
    (h : (r.isDirty || sc r rel) = true) :
    updatedFilter sc rel (r :: l) = r :: updatedFilter sc rel l := by
  unfold updatedFilter
  exact List.filter_cons_of_pos h

theorem updatedFilter_cons_neg {P : Type} {sc : CRecord → P → Bool}
    {rel : P} {r : CRecord} (l : List CRecord)
    (h : (r.isDirty || sc r rel) = false) :
    updatedFilter sc rel (r :: l) = updatedFilter sc rel l := by
  unfold updatedFilter
  exact List.filter_cons_of_neg (by simp [h])

theorem filterEvents_cons_dirty {P : Type} {sc : CRecord → P → Bool}
    {rel : P} {r : CRecord} (l : List CRecord) (hd : r.isDirty = true) :
    filterEvents sc rel (r :: l) = filterEvents sc rel l := by
  have h0 : filterEvents sc rel (r :: l) =
      (if r.isDirty then []
       else if sc r rel then [CommitEvent.shouldCommitCall r]
       else [CommitEvent.shouldCommitCall r,
             CommitEvent.didUpdateRecord r]) ++ filterEvents sc rel l := rfl
  rw [h0, hd]
  simp

theorem filterEvents_cons_keep {P : Type} {sc : CRecord → P → Bool}
    {rel : P} {r : CRecord} (l : List CRecord) (hd : r.isDirty = false)
    (hsc : sc r rel = true) :
    filterEvents sc rel (r :: l) =
      CommitEvent.shouldCommitCall r :: filterEvents sc rel l := by
  have h0 : filterEvents sc rel (r :: l) =
      (if r.isDirty then []
       else if sc r rel then [CommitEvent.shouldCommitCall r]
       else [CommitEvent.shouldCommitCall r,
             CommitEvent.didUpdateRecord r]) ++ filterEvents sc rel l := rfl
  rw [h0, hd, hsc]
  simp

theorem filterEvents_cons_drop {P : Type} {sc : CRecord → P → Bool}
    {rel : P} {r : CRecord} (l : List CRecord) (hd : r.isDirty = false)
    (hsc : sc r rel = false) :
    filterEvents sc rel (r :: l) =
      CommitEvent.shouldCommitCall r :: CommitEvent.didUpdateRecord r ::
        filterEvents sc rel l := by
  have h0 : filterEvents sc rel (r :: l) =
      (if r.isDirty then []
       else if sc r rel then [CommitEvent.shouldCommitCall r]
       else [CommitEvent.shouldCommitCall r,
             CommitEvent.didUpdateRecord r]) ++ filterEvents sc rel l := rfl
  rw [h0, hd, hsc]
  simp

theorem commitFilter_aux {P : Type} (sc : CRecord → P → Bool) (rel : P)
    (l : List CRecord) (a : List CRecord) (e : List CommitEvent) :
    l.foldl (fun acc r =>
      if !r.isDirty then
        if !(sc r rel) then
          (acc.1, acc.2 ++ [CommitEvent.shouldCommitCall r,
                            CommitEvent.didUpdateRecord r])
        else
          (acc.1 ++ [r], acc.2 ++ [CommitEvent.shouldCommitCall r])
      else (acc.1 ++ [r], acc.2)) (a, e) =
      (a ++ updatedFilter sc rel l, e ++ filterEvents sc rel l) := by
  induction l generalizing a e with
  | nil => simp [updatedFilter, filterEvents]
  | cons r l' ih =>
      cases hd : r.isDirty with
      | true =>
          simp only [List.foldl_cons, hd, Bool.not_true,
            Bool.false_eq_true, if_false]
          rw [ih, filterEvents_cons_dirty l' hd,
            updatedFilter_cons_pos l' (by rw [hd]; rfl)]
          simp
      | false =>
          cases hsc : sc r rel with
          | true =>
              simp only [List.foldl_cons, hd, hsc, Bool.not_true,
                Bool.not_false, if_true, Bool.false_eq_true, if_false]
              rw [ih, filterEvents_cons_keep l' hd hsc,
                updatedFilter_cons_pos l' (by rw [hd, hsc]; rfl)]
              simp
          | false =>
              simp only [List.foldl_cons, hd, hsc, Bool.not_false,
                if_true]
              rw [ih, filterEvents_cons_drop l' hd hsc,
                updatedFilter_cons_neg l' (by rw [hd, hsc]; rfl)]
              simp

theorem commitFilter_eq {P : Type} (sc : CRecord → P → Bool) (rel : P)
    (l : List CRecord) :
    commitFilter sc rel l =
      (updatedFilter sc rel l, filterEvents sc rel l) := by
  unfold commitFilter
  rw [commitFilter_aux]
  simp

/-- `commit`'s full event trace in closed form: the filter-phase
events, then the three runs of batched dispatches. -/
theorem commit_events {P : Type} (sc : CRecord → P → Bool)
    (cd : CommitDetails) (rel : P) :
    commit sc cd rel =
      filterEvents sc rel cd.updated ++
      (groupByType cd.created).map
        (fun g => CommitEvent.createRecords g.1 g.2) ++
      (groupByType (updatedFilter sc rel cd.updated)).map
        (fun g => CommitEvent.updateRecords g.1 g.2) ++
      (groupByType cd.deleted).map
        (fun g => CommitEvent.deleteRecords g.1 g.2) := by
  unfold commit
  rw [commitFilter_eq]

theorem mem_filterEvents_shouldCommitCall {P : Type}
    {sc : CRecord → P → Bool} {rel : P} {l : List CRecord} {r : CRecord} :
    CommitEvent.shouldCommitCall r ∈ filterEvents sc rel l ↔
      r ∈ l ∧ r.isDirty = false := by
  induction l with
  | nil => simp [filterEvents]
  | cons x xs ih =>
      cases hd : x.isDirty with
      | true =>
          simp only [filterEvents, hd, if_true, List.nil_append, ih,
            List.mem_cons]
          constructor
          · rintro ⟨h1, h2⟩
            exact ⟨Or.inr h1, h2⟩
          · rintro ⟨h1 | h1, h2⟩
            · rw [h1] at h2
              rw [h2] at hd
              exact Bool.noConfusion hd
            · exact ⟨h1, h2⟩
      | false =>
          cases hsc : sc x rel with
          | true =>
              simp only [filterEvents, hd, hsc, Bool.false_eq_true,
                if_false, if_true, List.cons_append, List.nil_append,
                List.mem_cons, CommitEvent.shouldCommitCall.injEq, ih]
              constructor
              · rintro (rfl | ⟨h1, h2⟩)
                · exact ⟨Or.inl rfl, hd⟩
                · exact ⟨Or.inr h1, h2⟩
              · rintro ⟨h1 | h1, h2⟩
                · exact Or.inl h1
                · exact Or.inr ⟨h1, h2⟩
          | false =>
              simp only [filterEvents, hd, hsc, Bool.false_eq_true,
                if_false, List.cons_append, List.nil_append,
                List.mem_cons, CommitEvent.shouldCommitCall.injEq, ih]
              constructor
              · rintro (rfl | h | ⟨h1, h2⟩)
                · exact ⟨Or.inl rfl, hd⟩
                · exact CommitEvent.noConfusion h
                · exact ⟨Or.inr h1, h2⟩
              · rintro ⟨h1 | h1, h2⟩
                · exact Or.inl h1
                · exact Or.inr (Or.inr ⟨h1, h2⟩)

theorem mem_filterEvents_didUpdate {P : Type}
    {sc : CRecord → P → Bool} {rel : P} {l : List CRecord} {r : CRecord} :
    CommitEvent.didUpdateRecord r ∈ filterEvents sc rel l ↔
      r ∈ l ∧ r.isDirty = false ∧ sc r rel = false := by
  induction l with
  | nil => simp [filterEvents]
  | cons x xs ih =>
      cases hd : x.isDirty with
      | true =>
          simp only [filterEvents, hd, if_true, List.nil_append, ih,
            List.mem_cons]
          constructor
          · rintro ⟨h1, h2, h3⟩
            exact ⟨Or.inr h1, h2, h3⟩
          · rintro ⟨h1 | h1, h2, h3⟩
            · rw [h1] at h2
              rw [h2] at hd
              exact Bool.noConfusion hd
            · exact ⟨h1, h2, h3⟩
      | false =>
          cases hsc : sc x rel with
          | true =>
              simp only [filterEvents, hd, hsc, Bool.false_eq_true,
                if_false, if_true, List.cons_append, List.nil_append,
                List.mem_cons, ih]
              constructor
              · rintro (h | ⟨h1, h2, h3⟩)
                · exact CommitEvent.noConfusion h
                · exact ⟨Or.inr h1, h2, h3⟩
              · rintro ⟨h1 | h1, h2, h3⟩
                · rw [h1] at h3
                  rw [h3] at hsc
                  exact Bool.noConfusion hsc
                · exact Or.inr ⟨h1, h2, h3⟩
          | false =>
              simp only [filterEvents, hd, hsc, Bool.false_eq_true,
                if_false, List.cons_append, List.nil_append,
                List.mem_cons, CommitEvent.didUpdateRecord.injEq, ih]
              constructor
              · rintro (h | rfl | ⟨h1, h2, h3⟩)
                · exact CommitEvent.noConfusion h
                · exact ⟨Or.inl rfl, hd, hsc⟩
                · exact ⟨Or.inr h1, h2, h3⟩
              · rintro ⟨h1 | h1, h2, h3⟩
                · exact Or.inr (Or.inl h1)
                · exact Or.inr (Or.inr ⟨h1, h2, h3⟩)

theorem filterEvents_not_batch {P : Type} {sc : CRecord → P → Bool}
    {rel : P} {l : List CRecord} :
    ∀ e ∈ filterEvents sc rel l, e.isBatch = false := by
  induction l with
  | nil => intro e he; exact absurd he (List.not_mem_nil e)
  | cons x xs ih =>
      intro e he
      cases hd : x.isDirty with
      | true =>
          rw [filterEvents_cons_dirty xs hd] at he
          exact ih e he
      | false =>
          cases hsc : sc x rel with
          | true =>
              rw [filterEvents_cons_keep xs hd hsc] at he
              rcases List.mem_cons.mp he with rfl | ht
              · rfl
              · exact ih e ht
          | false =>
              rw [filterEvents_cons_drop xs hd hsc] at he
              rcases List.mem_cons.mp he with rfl | ht
              · rfl
              · rcases List.mem_cons.mp ht with rfl | ht2
                · rfl
                · exact ih e ht2

/-- The entry of a member's own type in `groupByType`. -/
theorem entry_mem_groupByType {l : List CRecord} {r : CRecord}
    (hr : r ∈ l) :
    (r.typeId, l.filter (fun x => x.typeId == r.typeId)) ∈
      groupByType l := by
  rw [groupByType_eq]
  exact List.mem_map_of_mem _ (mem_firstSeen.mpr (List.mem_map_of_mem _ hr))

theorem mem_commit_updateRecords {P : Type} {sc : CRecord → P → Bool}
    {cd : CommitDetails} {rel : P} {t : Nat} {g : List CRecord} :
    CommitEvent.updateRecords t g ∈ commit sc cd rel ↔
      (t, g) ∈ groupByType (updatedFilter sc rel cd.updated) := by
  rw [commit_events]
  simp only [List.mem_append, List.mem_map]
  constructor
  · rintro (((hf | ⟨p, hp, he⟩) | ⟨p, hp, he⟩) | ⟨p, hp, he⟩)
    · exact absurd (filterEvents_not_batch _ hf) (by simp [CommitEvent.isBatch])
    · exact CommitEvent.noConfusion he
    · obtain ⟨t', g'⟩ := p
      simp only [CommitEvent.updateRecords.injEq] at he
      rw [← he.1, ← he.2]
      exact hp
    · exact CommitEvent.noConfusion he
  · intro hp
    exact Or.inl (Or.inr ⟨(t, g), hp, rfl⟩)

theorem count_didUpdate_filterEvents_of_not_mem {P : Type}
    {sc : CRecord → P → Bool} {rel : P} {r : CRecord} {l : List CRecord}
    (h : r ∉ l) :
    (filterEvents sc rel l).count (CommitEvent.didUpdateRecord r) = 0 := by
  induction l with
  | nil => rfl
  | cons x xs ih =>
      have hrx : r ≠ x := fun e => h (e ▸ List.mem_cons_self x xs)
      have hr : r ∉ xs := fun hm => h (List.mem_cons_of_mem _ hm)
      cases hd : x.isDirty with
      | true =>
          rw [filterEvents_cons_dirty xs hd]
          exact ih hr
      | false =>
          cases hsc : sc x rel with
          | true =>
              rw [filterEvents_cons_keep xs hd hsc, List.count_cons,
                beq_false_of_ne (show CommitEvent.shouldCommitCall x ≠
                    CommitEvent.didUpdateRecord r from
                  fun he => CommitEvent.noConfusion he)]
              simp [ih hr]
          | false =>
              rw [filterEvents_cons_drop xs hd hsc, List.count_cons,
                List.count_cons,
                beq_false_of_ne (show CommitEvent.shouldCommitCall x ≠
                    CommitEvent.didUpdateRecord r from
                  fun he => CommitEvent.noConfusion he),
                beq_false_of_ne (show CommitEvent.didUpdateRecord x ≠
                    CommitEvent.didUpdateRecord r from fun he => by
                  injection he with h3
                  exact hrx h3.symm)]
              simp [ih hr]

theorem count_didUpdate_filterEvents_eq_one {P : Type}
    {sc : CRecord → P → Bool} {rel : P} {r : CRecord} {l : List CRecord}
    (hnd : l.Nodup) (hmem : r ∈ l) (hc : r.isDirty = false)
    (hs : sc r rel = false) :
    (filterEvents sc rel l).count (CommitEvent.didUpdateRecord r) = 1 := by
  induction l with
  | nil => exact absurd hmem (List.not_mem_nil r)
  | cons x xs ih =>
      rw [List.nodup_cons] at hnd
      rcases List.mem_cons.mp hmem with rfl | hm
      · rw [filterEvents_cons_drop xs hc hs, List.count_cons,
          List.count_cons,
          beq_false_of_ne (show CommitEvent.shouldCommitCall r ≠
              CommitEvent.didUpdateRecord r from
            fun he => CommitEvent.noConfusion he),
          beq_self_eq_true, count_didUpdate_filterEvents_of_not_mem hnd.1]
        simp
      · have hrx : r ≠ x := fun e => hnd.1 (e ▸ hm)
        cases hd : x.isDirty with
        | true =>
            rw [filterEvents_cons_dirty xs hd]
            exact ih hnd.2 hm
        | false =>
            cases hsc : sc x rel with
            | true =>
                rw [filterEvents_cons_keep xs hd hsc, List.count_cons,
                  beq_false_of_ne (show CommitEvent.shouldCommitCall x ≠
                      CommitEvent.didUpdateRecord r from
                    fun he => CommitEvent.noConfusion he)]
                simp [ih hnd.2 hm]
            | false =>
                rw [filterEvents_cons_drop xs hd hsc, List.count_cons,
                  List.count_cons,
                  beq_false_of_ne (show CommitEvent.shouldCommitCall x ≠
                      CommitEvent.didUpdateRecord r from
                    fun he => CommitEvent.noConfusion he),
                  beq_false_of_ne (show CommitEvent.didUpdateRecord x ≠
                      CommitEvent.didUpdateRecord r from fun he => by
                    injection he with h3
                    exact hrx h3.symm)]
                simp [ih hnd.2 hm]

theorem count_didUpdate_map_zero {r : CRecord}
    {L : List (Nat × List CRecord)} (f : Nat × List CRecord → CommitEvent)
    (hf : ∀ p, f p ≠ CommitEvent.didUpdateRecord r) :
    (L.map f).count (CommitEvent.didUpdateRecord r) = 0 := by
  rw [List.count_eq_zero]
  intro hmem
  rcases List.mem_map.mp hmem with ⟨p, _, hp⟩
  exact hf p hp

/-- **C3.** `groupByType(C)` partitions a mixed collection by record
type: the keys are the types in first-seen order, with no repetition;
each group is the sub-collection of records of that type in C's
original relative order; the union of the groups equals C; every record
of C lies in exactly one group. -/
theorem groupByType_partition (l : List CRecord) :
    ((groupByType l).map Prod.fst = firstSeen (l.map (·.typeId))) ∧
    ((groupByType l).map Prod.fst).Nodup ∧
    (∀ p ∈ groupByType l, p.2 = l.filter (fun r => r.typeId == p.1)) ∧
    (((groupByType l).map Prod.snd).flatten.Perm l) ∧
    (∀ r ∈ l, ∃! t, ∃ g, (t, g) ∈ groupByType l ∧ r ∈ g) := by
  have hkeys : (groupByType l).map Prod.fst = firstSeen (l.map (·.typeId)) :=
    keysOf_groupByType l
  refine ⟨hkeys, ?_, fun p hp => groupByType_entry hp, ?_, ?_⟩
  · rw [hkeys]
    exact firstSeen_nodup _
  · rw [groupByType_eq l, List.map_map]
    have hfun : (Prod.snd ∘ fun t => (t, l.filter (fun r => r.typeId == t)))
        = fun t => l.filter (fun r => r.typeId == t) := rfl
    rw [hfun]
    exact flatten_fibers_perm _ l (firstSeen_nodup _)
      (fun r hr => mem_firstSeen.mpr (List.mem_map_of_mem _ hr))
  · intro r hr
    refine ⟨r.typeId,
      ⟨l.filter (fun x => x.typeId == r.typeId), ?_, ?_⟩, ?_⟩
    · rw [groupByType_eq l]
      exact List.mem_map_of_mem _
        (mem_firstSeen.mpr (List.mem_map_of_mem _ hr))
    · exact List.mem_filter.mpr ⟨hr, beq_self_eq_true _⟩
    · rintro t' ⟨g', hmem, hrg⟩
      have hg : g' = l.filter (fun r => r.typeId == t') :=
        groupByType_entry hmem
      rw [hg] at hrg
      have := (List.mem_filter.mp hrg).2
      exact (eq_of_beq this).symm

/-- Witness for C3 at a concrete mixed collection. -/
theorem groupByType_partition_witness :
    ((10, ([⟨1, 10, true⟩, ⟨3, 10, true⟩] : List CRecord)) ∈
      groupByType [⟨1, 10, true⟩, ⟨2, 20, false⟩, ⟨3, 10, true⟩]) ∧
    ([⟨1, 10, true⟩, ⟨3, 10, true⟩] : List CRecord) =
      List.filter (fun r => r.typeId == 10)
        [⟨1, 10, true⟩, ⟨2, 20, false⟩, ⟨3, 10, true⟩] :=
  ⟨by decide,
    (groupByType_partition
      [⟨1, 10, true⟩, ⟨2, 20, false⟩, ⟨3, 10, true⟩]).2.2.1
      (10, [⟨1, 10, true⟩, ⟨3, 10, true⟩]) (by decide)⟩

/-- Witness for C10 at a concrete record type, payload and record. -/
theorem materialize_frame_witness :
    MatCall.hasMany "x" (some "v") ∉
      materializeCalls ⟨["a"], [("x", AssocKind.other)]⟩
        [("x", "v"), ("a", "w")] :=
  (materialize_frame ⟨["a"], [("x", AssocKind.other)]⟩
    [("x", "v"), ("a", "w")] "x"
    (by intro k hk; simpa using List.mem_singleton.mp hk)
    (by decide)).2.2.2.2.1 (some "v")

/-- A filtered batch segment of a `commit` trace in first-seen order. -/
theorem batch_segment_eq (X : List CRecord)
    (f : Nat → List CRecord → CommitEvent)
    (hf : ∀ t g, (f t g).isBatch = true) :
    ((groupByType X).map (fun g => f g.1 g.2)).filter CommitEvent.isBatch =
      (firstSeen (X.map (·.typeId))).map
        (fun t => f t (X.filter (fun r => r.typeId == t))) := by
  rw [List.filter_eq_self.mpr (by
    intro a ha
    rcases List.mem_map.mp ha with ⟨p, _, rfl⟩
    exact hf p.1 p.2)]
  rw [groupByType_eq, List.map_map]
  rfl

/-- **C1.** A dirty record of `commitDetails.updated` is added to the
update batch — it appears in an `updateRecords` dispatch for its type —
and `shouldCommit` is never consulted on it. -/
theorem commit_dirty_updated {P : Type} (sc : CRecord → P → Bool)
    (cd : CommitDetails) (rel : P) (r : CRecord)
    (hmem : r ∈ cd.updated) (hdirty : r.isDirty = true) :
    (∃ g, CommitEvent.updateRecords r.typeId g ∈ commit sc cd rel ∧
      r ∈ g) ∧
    CommitEvent.shouldCommitCall r ∉ commit sc cd rel := by
  have hup : r ∈ updatedFilter sc rel cd.updated := by
    unfold updatedFilter
    exact List.mem_filter.mpr ⟨hmem, by rw [hdirty]; rfl⟩
  constructor
  · refine ⟨(updatedFilter sc rel cd.updated).filter
      (fun x => x.typeId == r.typeId), ?_, ?_⟩
    · exact mem_commit_updateRecords.mpr (entry_mem_groupByType hup)
    · exact List.mem_filter.mpr ⟨hup, beq_self_eq_true _⟩
  · rw [commit_events]
    intro hin
    rcases List.mem_append.mp hin with h3 | h3
    · rcases List.mem_append.mp h3 with h2 | h2
      · rcases List.mem_append.mp h2 with h1 | h1
        · have := (mem_filterEvents_shouldCommitCall.mp h1).2
          rw [hdirty] at this
          exact Bool.noConfusion this
        · rcases List.mem_map.mp h1 with ⟨p, _, hp⟩
          exact CommitEvent.noConfusion hp
      · rcases List.mem_map.mp h2 with ⟨p, _, hp⟩
        exact CommitEvent.noConfusion hp
    · rcases List.mem_map.mp h3 with ⟨p, _, hp⟩
      exact CommitEvent.noConfusion hp

/-- Witness for C1: a dirty record, with `shouldCommit` answering
`false`, still reaches `updateRecords`. -/
theorem commit_dirty_updated_witness :
    (∃ g, CommitEvent.updateRecords 10 g ∈
        commit (fun _ (_ : Unit) => false) ⟨[], [⟨1, 10, true⟩], []⟩ () ∧
      (⟨1, 10, true⟩ : CRecord) ∈ g) ∧
    CommitEvent.shouldCommitCall ⟨1, 10, true⟩ ∉
      commit (fun _ (_ : Unit) => false) ⟨[], [⟨1, 10, true⟩], []⟩ () :=
  commit_dirty_updated (fun _ _ => false) ⟨[], [⟨1, 10, true⟩], []⟩ ()
    ⟨1, 10, true⟩ (by decide) rfl

/-- **C2.** A clean record of `commitDetails.updated` that
`shouldCommit` rejects is reported via `store.didUpdateRecord` exactly
once and appears in no `updateRecords` dispatch. -/
theorem commit_clean_skipped {P : Type} (sc : CRecord → P → Bool)
    (cd : CommitDetails) (rel : P) (r : CRecord)
    (hnd : cd.updated.Nodup) (hmem : r ∈ cd.updated)
    (hclean : r.isDirty = false) (hsc : sc r rel = false) :
    (commit sc cd rel).count (CommitEvent.didUpdateRecord r) = 1 ∧
    (∀ t g, CommitEvent.updateRecords t g ∈ commit sc cd rel →
      r ∉ g) := by
  constructor
  · rw [commit_events, List.count_append, List.count_append,
      List.count_append,
      count_didUpdate_filterEvents_eq_one hnd hmem hclean hsc,
      count_didUpdate_map_zero _ (fun p he => CommitEvent.noConfusion he),
      count_didUpdate_map_zero _ (fun p he => CommitEvent.noConfusion he),
      count_didUpdate_map_zero _ (fun p he => CommitEvent.noConfusion he)]
  · intro t g hg hrg
    have hp := mem_commit_updateRecords.mp hg
    have hgf : g = (updatedFilter sc rel cd.updated).filter
        (fun x => x.typeId == t) := groupByType_entry hp
    rw [hgf] at hrg
    have h1 := (List.mem_filter.mp hrg).1
    unfold updatedFilter at h1
    have h2 : (r.isDirty || sc r rel) = true := (List.mem_filter.mp h1).2
    rw [hclean, hsc] at h2
    exact Bool.noConfusion h2

/-- Witness for C2 at a concrete clean record. -/
theorem commit_clean_skipped_witness :
    (commit (fun _ (_ : Unit) => false) ⟨[], [⟨1, 10, false⟩], []⟩
      ()).count (CommitEvent.didUpdateRecord ⟨1, 10, false⟩) = 1 ∧
    (∀ t g, CommitEvent.updateRecords t g ∈
        commit (fun _ (_ : Unit) => false) ⟨[], [⟨1, 10, false⟩], []⟩ () →
      (⟨1, 10, false⟩ : CRecord) ∉ g) :=
  commit_clean_skipped (fun _ _ => false) ⟨[], [⟨1, 10, false⟩], []⟩ ()
    ⟨1, 10, false⟩ (by decide) (by decide) rfl rfl

/-- **C4.** The batched dispatches of a `commit` trace come in a fixed
order — `createRecords` per created type, then `updateRecords` per
type of the filtered updated set, then `deleteRecords` per deleted
type — with types in first-seen order, once per type, each call
receiving that type's record collection (`array.slice()` passes the
group's records by value). -/
theorem commit_batch_order {P : Type} (sc : CRecord → P → Bool)
    (cd : CommitDetails) (rel : P) :
    ((commit sc cd rel).filter CommitEvent.isBatch =
      (firstSeen (cd.created.map (·.typeId))).map
        (fun t => CommitEvent.createRecords t
          (cd.created.filter (fun r => r.typeId == t))) ++
      (firstSeen ((updatedFilter sc rel cd.updated).map (·.typeId))).map
        (fun t => CommitEvent.updateRecords t
          ((updatedFilter sc rel cd.updated).filter
            (fun r => r.typeId == t))) ++
      (firstSeen (cd.deleted.map (·.typeId))).map
        (fun t => CommitEvent.deleteRecords t
          (cd.deleted.filter (fun r => r.typeId == t)))) ∧
    (firstSeen (cd.created.map (·.typeId))).Nodup ∧
    (firstSeen ((updatedFilter sc rel cd.updated).map (·.typeId))).Nodup ∧
    (firstSeen (cd.deleted.map (·.typeId))).Nodup := by
  refine ⟨?_, firstSeen_nodup _, firstSeen_nodup _, firstSeen_nodup _⟩
  rw [commit_events, List.filter_append, List.filter_append,
    List.filter_append]
  have h0 : (filterEvents sc rel cd.updated).filter CommitEvent.isBatch
      = [] :=
    List.filter_eq_nil_iff.mpr (fun e he => by
      rw [filterEvents_not_batch e he]
      exact Bool.noConfusion)
  rw [h0,
    batch_segment_eq cd.created
      (fun t g => CommitEvent.createRecords t g) (fun _ _ => rfl),
    batch_segment_eq (updatedFilter sc rel cd.updated)
      (fun t g => CommitEvent.updateRecords t g) (fun _ _ => rfl),
    batch_segment_eq cd.deleted
      (fun t g => CommitEvent.deleteRecords t g) (fun _ _ => rfl)]
  simp

/-- **C5.** When `created` and `deleted` are empty, `commit` dispatches
`updateRecords` exactly once per distinct type of the filtered updated
set and never dispatches `createRecords` or `deleteRecords`. -/
theorem commit_updates_only {P : Type} (sc : CRecord → P → Bool)
    (cd : CommitDetails) (rel : P) (hc : cd.created = [])
    (hd : cd.deleted = []) :
    (∀ t g, CommitEvent.createRecords t g ∉ commit sc cd rel) ∧
    (∀ t g, CommitEvent.deleteRecords t g ∉ commit sc cd rel) ∧
    ((commit sc cd rel).filterMap updateKey =
      firstSeen ((updatedFilter sc rel cd.updated).map (·.typeId))) ∧
    (firstSeen ((updatedFilter sc rel cd.updated).map (·.typeId))).Nodup
    := by
  refine ⟨?_, ?_, ?_, firstSeen_nodup _⟩
  · intro t g hin
    rw [commit_events, hc] at hin
    rcases List.mem_append.mp hin with h3 | h3
    · rcases List.mem_append.mp h3 with h2 | h2
      · rcases List.mem_append.mp h2 with h1 | h1
        · have := filterEvents_not_batch _ h1
          exact Bool.noConfusion this
        · exact absurd h1 (List.not_mem_nil _)
      · rcases List.mem_map.mp h2 with ⟨p, _, hp⟩
        exact CommitEvent.noConfusion hp
    · rcases List.mem_map.mp h3 with ⟨p, _, hp⟩
      exact CommitEvent.noConfusion hp
  · intro t g hin
    rw [commit_events, hd] at hin
    rcases List.mem_append.mp hin with h3 | h3
    · rcases List.mem_append.mp h3 with h2 | h2
      · rcases List.mem_append.mp h2 with h1 | h1
        · have := filterEvents_not_batch _ h1
          exact Bool.noConfusion this
        · rcases List.mem_map.mp h1 with ⟨p, _, hp⟩
          exact CommitEvent.noConfusion hp
      · rcases List.mem_map.mp h2 with ⟨p, _, hp⟩
        exact CommitEvent.noConfusion hp
    · exact absurd h3 (List.not_mem_nil _)
  · rw [commit_events, hc, hd]
    rw [List.filterMap_append, List.filterMap_append,
      List.filterMap_append]
    have h1 : (filterEvents sc rel cd.updated).filterMap updateKey
        = [] := by
      rw [List.filterMap_eq_nil_iff]
      intro e he
      cases e with
      | shouldCommitCall _ => rfl
      | didUpdateRecord _ => rfl
      | createRecords _ _ => rfl
      | updateRecords t g =>
          have := filterEvents_not_batch _ he
          exact Bool.noConfusion this
      | deleteRecords _ _ => rfl
    have h2 : ((groupByType (updatedFilter sc rel cd.updated)).map
        (fun g => CommitEvent.updateRecords g.1 g.2)).filterMap updateKey
        = (groupByType (updatedFilter sc rel cd.updated)).map Prod.fst :=
      by
      rw [List.filterMap_map]
      exact List.filterMap_eq_map Prod.fst ▸ rfl
    have h3 : (groupByType (updatedFilter sc rel cd.updated)).map
        Prod.fst =
        firstSeen ((updatedFilter sc rel cd.updated).map (·.typeId)) :=
      keysOf_groupByType _
    rw [h1, h2, h3]
    simp [groupByType]

/-- Witness for C5 with one dirty updated record and empty created and
deleted sets. -/
theorem commit_updates_only_witness :
    (commit (fun _ (_ : Unit) => true) ⟨[], [⟨1, 10, true⟩], []⟩
      ()).filterMap updateKey =
      firstSeen ((updatedFilter (fun _ (_ : Unit) => true) ()
        [⟨1, 10, true⟩]).map (·.typeId)) :=
  (commit_updates_only (fun _ _ => true) ⟨[], [⟨1, 10, true⟩], []⟩ ()
    rfl rfl).2.2.1

theorem foldl_append_map {α β : Type} (f : α → β) (l : List α)
    (a : List β) :
    l.foldl (fun acc i => acc ++ [f i]) a = a ++ l.map f := by
  induction l generalizing a with
  | nil => simp
  | cons x xs ih =>
      simp only [List.foldl_cons, List.map_cons, ih, List.append_assoc,
        List.singleton_append]

/-- **C7.** The default `findMany(store, type, ids)` issues exactly one
`find(store, type, id)` call per id, in the order of `ids`, and
aggregates nothing: its trace is exactly those calls. -/
theorem findMany_calls (store rtype : Nat) (ids : List Nat) :
    findMany store rtype ids =
      ids.map (fun i => FindCall.mk store rtype i) ∧
    (findMany store rtype ids).length = ids.length := by
  have h : findMany store rtype ids =
      ids.map (fun i => FindCall.mk store rtype i) := by
    unfold findMany
    rw [foldl_append_map]
    simp
  exact ⟨h, by rw [h, List.length_map]⟩

/-- **C8.** The default batched CRUD methods delegate to the
single-record primitives exactly once per record, in input order, with
no batching: their traces are exactly those calls. -/
theorem batch_defaults_delegate (store rtype : Nat)
    (records : List CRecord) :
    createRecords store rtype records =
      records.map (CrudCall.createRecord store rtype) ∧
    updateRecords store rtype records =
      records.map (CrudCall.updateRecord store rtype) ∧
    deleteRecords store rtype records =
      records.map (CrudCall.deleteRecord store rtype) := by
  refine ⟨?_, ?_, ?_⟩
  · unfold createRecords
    rw [foldl_append_map]
    simp
  · unfold updateRecords
    rw [foldl_append_map]
    simp
  · unfold deleteRecords
    rw [foldl_append_map]
    simp

end DSAdapter
